import Mathlib

/-!
Verification development for the endstone plugin runtime headers:
the plugin lifecycle (plugin.h), the permission resolution engine
(declared in detail/actor/human.h), and the event dispatch coordinator
(declared in bedrock/event/event_coordinator.h).

`Plugin::setEnabled`, `Plugin::isEnabled` and the `enabled_` field are
implemented in `include/endstone/plugin/plugin.h` and are embedded
directly.  The bodies of the permission engine, the lifecycle manager
and the dispatcher exist only as declarations in the headers, so they
are modelled from the specification document, as flagged in each doc
comment.
-/

namespace EndstoneSpec

/-- A record of one virtual lifecycle hook invocation.  Each constructor
stores the value `isEnabled()` returns at the moment the hook body runs,
so that theorems can speak about what a hook observes. -/
inductive HookInvocation where
  | onEnableCalled (observedEnabled : Bool)
  | onDisableCalled (observedEnabled : Bool)
  deriving DecidableEq, Repr

/-- Shallow embedding of the observable state of `endstone::Plugin`
(plugin.h): the private field `bool enabled_ = false;` (plugin.h:163).
`Plugin() = default`, so a newly constructed plugin keeps the field
initializer `false`. -/
structure Plugin where
  enabled_ : Bool := false
  deriving DecidableEq, Repr

/-- Embedding of `Plugin::isEnabled` (plugin.h:78-81): returns `enabled_`. -/
def Plugin.isEnabled (p : Plugin) : Bool :=
  p.enabled_

/-- Embedding of `Plugin::setEnabled` (plugin.h:149-161):
if `enabled_ != enabled`, assign `enabled_ = enabled` and then call
`onEnable()` when the new flag is true, `onDisable()` otherwise.
The returned list records the hook invocations, each tagged with the
value `isEnabled()` yields at hook time (the flag has already been
assigned when the hook body runs). -/
def Plugin.setEnabled (p : Plugin) (enabled : Bool) : Plugin × List HookInvocation :=
  if p.enabled_ ≠ enabled then
    let p' : Plugin := { p with enabled_ := enabled }
    if p'.enabled_ then
      (p', [HookInvocation.onEnableCalled p'.isEnabled])
    else
      (p', [HookInvocation.onDisableCalled p'.isEnabled])
  else
    (p, [])

/-- Number of `onEnable` invocations in a hook record. -/
def countOnEnable (l : List HookInvocation) : Nat :=
  (l.filter fun h => match h with
    | HookInvocation.onEnableCalled _ => true
    | _ => false).length

/-- Number of `onDisable` invocations in a hook record. -/
def countOnDisable (l : List HookInvocation) : Nat :=
  (l.filter fun h => match h with
    | HookInvocation.onDisableCalled _ => true
    | _ => false).length

/-! ## Permission registry and Permissible

The permission engine is declared in `include/endstone/detail/actor/human.h`
(`isPermissionSet`, `hasPermission`, `addAttachment`, `removeAttachment`,
`recalculatePermissions`, `getEffectivePermissions`) but its implementation
(`PermissibleBase`) is not part of the source excerpt, so the definitions
below are modelled from the specification (spec §3, §4.1, §4.2). -/

/-- Modelled from the spec (§3): a permission default policy,
one of Granted, Denied, OperatorsOnly. -/
inductive DefaultPolicy where
  | granted
  | denied
  | operatorsOnly
  deriving DecidableEq, Repr

/-- Modelled from the spec (§3): a registered permission definition with a
dot-segmented hierarchical name, a default policy, and explicit
child-permission implications. -/
structure PermissionDefinition where
  name : String
  defaultPolicy : DefaultPolicy
  children : List (String × Bool)
  deriving DecidableEq, Repr

/-- The process-wide permission registry (spec §4.1), as the list of
registered definitions. -/
abbrev Registry := List PermissionDefinition

/-- Modelled from the spec (§4.1): `lookup(name)` returns the definition
registered under `name`, if any. -/
def lookupDefinition (reg : Registry) (n : String) : Option PermissionDefinition :=
  reg.find? fun d => d.name == n

/-- Split a character list at every dot, producing the list of
dot-separated segments. -/
def splitDots : List Char → List (List Char)
  | [] => [[]]
  | c :: cs =>
    if c = '.' then
      [] :: splitDots cs
    else
      match splitDots cs with
      | [] => [[c]]
      | seg :: tail => (c :: seg) :: tail

/-- The dot-separated segments of a permission name (spec §3:
names are dot-segmented hierarchical keys such as `plugin.feature.action`). -/
def segmentsOf (n : String) : List String :=
  (splitDots n.data).map String.mk

/-- Join segments back with dots. -/
def joinDots : List String → String
  | [] => ""
  | [s] => s
  | s :: rest => s ++ "." ++ joinDots rest

/-- The proper ancestors of a dot-segmented name, most specific first:
`ancestors "a.b.c" = ["a.b", "a"]`. -/
def ancestors (n : String) : List String :=
  let segs := segmentsOf n
  (List.range (segs.length - 1)).reverse.map fun k => joinDots (segs.take (k + 1))

/-- Modelled from the spec (§4.1): hierarchical implication resolution.
Walking from the most specific matching parent of the queried name to the
root, the first registered parent definition that carries an explicit
child implication for the name supplies its boolean. -/
def childImplication (reg : Registry) (n : String) : Option Bool :=
  (ancestors n).findSome? fun a =>
    (lookupDefinition reg a).bind fun d => d.children.lookup n

/-- The boolean a default policy resolves to for an actor with the given
operator flag: Granted ⇒ true, Denied ⇒ false, OperatorsOnly ⇒ the flag. -/
def policyGrants (isOp : Bool) : DefaultPolicy → Bool
  | DefaultPolicy.granted => true
  | DefaultPolicy.denied => false
  | DefaultPolicy.operatorsOnly => isOp

/-- Modelled from the spec (§4.1): registry default resolution for a
queried name with no explicit attachment override — first the hierarchical
implication walk, then the permission's own declared default policy, and
if no definition is registered the global default Denied (false). -/
def registryResolve (reg : Registry) (isOp : Bool) (n : String) : Bool :=
  match childImplication reg n with
  | some b => b
  | none =>
    match lookupDefinition reg n with
    | some d => policyGrants isOp d.defaultPolicy
    | none => false

/-- Modelled from the spec (§3): a permission attachment — an ordered set
of (permission-name, boolean) overrides, identified by an opaque handle
(`id`) and owned by at most one plugin (`owner = none` models a manual
server-side grant). -/
structure PermissionAttachment where
  id : Nat
  owner : Option String
  perms : List (String × Bool)
  deriving DecidableEq, Repr

/-- An entry of the effective-permission snapshot: the resolved value of
one permission, tagged with the attachment that produced it
(`sourceAttachment`/`sourceOwner` are `none` for the "default" tag). -/
structure PermissionAttachmentInfo where
  permission : String
  value : Bool
  sourceAttachment : Option Nat
  sourceOwner : Option String
  deriving DecidableEq, Repr

/-- Modelled from the spec (§3): a Permissible holds an operator flag, its
attachments in creation order (later attachments take precedence on
conflict), and a cached effective-permission snapshot rebuilt by
`recalculatePermissions`. -/
structure Permissible where
  op_ : Bool
  attachments : List PermissionAttachment
  cache : List PermissionAttachmentInfo
  deriving DecidableEq, Repr

/-- Scan the attachments in reverse creation order (most recently added
first) and return the first explicit boolean override for `n`, paired with
the attachment that carries it. -/
def findOverrideFrom (atts : List PermissionAttachment) (n : String) :
    Option (Bool × PermissionAttachment) :=
  atts.reverse.findSome? fun a => (a.perms.lookup n).map fun b => (b, a)

/-- The first explicit boolean override for `n` in reverse creation order. -/
def findOverride (atts : List PermissionAttachment) (n : String) : Option Bool :=
  (findOverrideFrom atts n).map Prod.fst

/-- Modelled from the spec (§4.2): the operator flag short-circuits a
permission query to true when the queried permission is registered with
the operators-only default policy. -/
def opShortCircuits (reg : Registry) (isOp : Bool) (n : String) : Bool :=
  isOp &&
    match lookupDefinition reg n with
    | some d =>
      match d.defaultPolicy with
      | DefaultPolicy.operatorsOnly => true
      | _ => false
    | none => false

/-- Modelled from the spec (§4.2): `hasPermission(name)`, declared at
human.h:39.  The operator flag may short-circuit to true; otherwise the
attachments are scanned in reverse creation order and the first explicit
boolean wins; with no override the query falls back to registry default
resolution (§4.1); unset resolves to false. -/
def hasPermission (reg : Registry) (p : Permissible) (n : String) : Bool :=
  if opShortCircuits reg p.op_ n then
    true
  else
    match findOverride p.attachments n with
    | some b => b
    | none => registryResolve reg p.op_ n

/-- First-occurrence deduplication of a name list. -/
def dedupFirst : List String → List String
  | [] => []
  | a :: rest => a :: (dedupFirst rest).filter fun b => b != a

/-- Every permission name mentioned by an attachment override or by a
registered definition, in first-mention order. -/
def mentionedNames (reg : Registry) (p : Permissible) : List String :=
  dedupFirst ((p.attachments.map fun a => a.perms.map Prod.fst).flatten ++ reg.map PermissionDefinition.name)

/-- The snapshot entry for one permission name: present exactly when the
resolved value differs from the attachment-free registry default, tagged
with the attachment that produced the value (or the "default" tag). -/
def effectiveEntry (reg : Registry) (p : Permissible) (n : String) :
    Option PermissionAttachmentInfo :=
  let v := hasPermission reg p n
  if v = registryResolve reg p.op_ n then
    none
  else
    match findOverrideFrom p.attachments n with
    | some ba => some ⟨n, v, some ba.2.id, ba.2.owner⟩
    | none => some ⟨n, v, none, none⟩

/-- The effective-permission snapshot entries, in the order the names are
first mentioned (the order the implementation inserts them into its
container). -/
def effectiveEntriesList (reg : Registry) (p : Permissible) :
    List PermissionAttachmentInfo :=
  (mentionedNames reg p).filterMap (effectiveEntry reg p)

/-- Modelled from the spec (§4.2) with the return type of the source
declaration (human.h:45): `getEffectivePermissions()` returns its snapshot
entries as a `std::unordered_set`, embedded as the multiset of entries —
the container type carries no ordering. -/
def getEffectivePermissions (reg : Registry) (p : Permissible) :
    Multiset PermissionAttachmentInfo :=
  ↑(effectiveEntriesList reg p)

/-- Modelled from the spec (§4.2): `recalculatePermissions()` rebuilds the
cached effective-permission snapshot (declared at human.h:44). -/
def recalculatePermissions (reg : Registry) (p : Permissible) : Permissible :=
  { p with cache := effectiveEntriesList reg p }

/-- Modelled from the spec (§4.2) with the signature of the source
declaration (human.h:43): `removeAttachment(attachment)` returns false —
the `AttachmentNotFound` failure signalled to the caller — when the
attachment does not belong to this Permissible; otherwise it detaches the
attachment, triggers `recalculatePermissions()`, and returns true. -/
def removeAttachment (reg : Registry) (p : Permissible) (attId : Nat) :
    Bool × Permissible :=
  if p.attachments.any fun a => a.id == attId then
    (true, recalculatePermissions reg
      { p with attachments := p.attachments.filter fun a => a.id != attId })
  else
    (false, p)

/-- Lexicographic strict order on character lists by code point. -/
def charListLt : List Char → List Char → Bool
  | [], [] => false
  | [], _ :: _ => true
  | _ :: _, [] => false
  | a :: as, b :: bs =>
    if a.toNat < b.toNat then true
    else if b.toNat < a.toNat then false
    else charListLt as bs

/-- Strict lexicographic order on permission names. -/
def nameLt (s t : String) : Bool :=
  charListLt s.data t.data

/-- Whether a snapshot listing is in ascending permission-name order. -/
def sortedByName : List PermissionAttachmentInfo → Bool
  | [] => true
  | [_] => true
  | a :: b :: rest =>
    (nameLt a.permission b.permission || a.permission == b.permission) &&
      sortedByName (b :: rest)

/-! ## Event dispatch coordinator

`LevelEventCoordinator::sendEvent` and `PlayerEventCoordinator::sendEvent`
are declared in `include/bedrock/event/event_coordinator.h` without
bodies, so dispatch is modelled from the specification (spec §3, §4.5). -/

/-- Modelled from the spec (§3): an event subscription — a per-category
handler with a priority and an owning plugin, tagged with its registration
index (`regIndex` grows with each registration, so it records registration
order). -/
structure Subscription where
  owner : String
  category : String
  priority : Nat
  regIndex : Nat
  deriving DecidableEq, Repr

/-- Delivery precedence between two subscriptions: lower priority value
first, ties broken by registration order. -/
def DispatchLE (a b : Subscription) : Prop :=
  a.priority < b.priority ∨ (a.priority = b.priority ∧ a.regIndex ≤ b.regIndex)

instance : DecidableRel DispatchLE := fun _ _ =>
  inferInstanceAs (Decidable (_ ∨ _))

instance : IsTotal Subscription DispatchLE :=
  ⟨by
    intro a b
    unfold DispatchLE
    omega⟩

instance : IsTrans Subscription DispatchLE :=
  ⟨by
    intro a b c hab hbc
    unfold DispatchLE at *
    omega⟩

/-- Modelled from the spec (§4.5): `sendEvent(event)` (declared at
event_coordinator.h:24 and :29) delivers the event synchronously to the
subscribers of the event's category; the returned list is the delivery
sequence: ascending priority, ties in registration order. -/
def sendEvent (subs : List Subscription) (cat : String) : List Subscription :=
  (subs.filter fun s => s.category == cat).insertionSort DispatchLE

/-- Modelled from the spec (§4.5): registering a subscription appends it
with the next registration index. -/
def subscribe (subs : List Subscription) (nextIndex : Nat) (owner category : String)
    (priority : Nat) : List Subscription × Nat :=
  (subs ++ [⟨owner, category, priority, nextIndex⟩], nextIndex + 1)

/-! ## Plugin descriptor, loader and lifecycle manager

`PluginLoader` and the lifecycle operations are only referenced from
`plugin.h`; their bodies are not in the source excerpt, so `resolveOrder`,
`loadAll`, `disableAll` and `disable(plugin)` are modelled from the
specification (spec §4.3, §4.4).  The per-plugin state transition reuses
the source-embedded `Plugin.setEnabled`. -/

/-- Modelled from the spec (§3): a plugin descriptor with its unique name
and declared hard dependencies (the load-order-relevant part). -/
structure PluginDescriptor where
  name : String
  hardDeps : List String
  deriving DecidableEq, Repr

/-- A descriptor is ready once every hard dependency has already been
emitted (collected in `done`). -/
def readyB (done : List String) (d : PluginDescriptor) : Bool :=
  d.hardDeps.all fun dep => done.contains dep

/-- One Kahn-style elimination pass: repeatedly emit the first pending
descriptor whose hard dependencies are all satisfied. -/
def resolveOrderAux : Nat → List String → List PluginDescriptor → List PluginDescriptor
  | 0, _, _ => []
  | n + 1, done, pending =>
    match pending.find? (readyB done) with
    | none => []
    | some d => d :: resolveOrderAux n (done ++ [d.name]) (pending.erase d)

/-- Modelled from the spec (§4.3): `resolveOrder(descriptors)` emits the
plugins in a deterministic order in which every hard dependency precedes
its dependent (plugins stuck in a cycle or with missing dependencies are
excluded). -/
def resolveOrder (ds : List PluginDescriptor) : List PluginDescriptor :=
  resolveOrderAux ds.length [] ds

/-- `topoOk done ord` checks that `ord` lists every descriptor after all
of its hard dependencies (given the names in `done` already load earlier):
`ord` is a topological order of the hard-dependency graph. -/
def topoOk : List String → List PluginDescriptor → Bool
  | _, [] => true
  | done, d :: rest => readyB done d && topoOk (done ++ [d.name]) rest

/-- `d` has no hard dependency pointing inside the descriptor set `s`. -/
def noDepInside (d : PluginDescriptor) (s : List PluginDescriptor) : Bool :=
  d.hardDeps.all fun dep => !((s.map PluginDescriptor.name).contains dep)

/-- Acyclicity of the hard-dependency graph, in elimination form: every
nonempty subset of the descriptors contains a member with no hard
dependency inside the subset. -/
def acyclicB (ds : List PluginDescriptor) : Bool :=
  ds.sublists.all fun s => s.isEmpty || s.any fun d => noDepInside d s

/-- Every hard dependency of every descriptor names another descriptor of
the set (no missing dependencies). -/
def depsSatisfiedB (ds : List PluginDescriptor) : Bool :=
  ds.all fun d => d.hardDeps.all fun dep => (ds.map PluginDescriptor.name).contains dep

/-- A plugin instance managed by the lifecycle manager: its immutable
descriptor and its runtime `Plugin` state. -/
structure ManagedPlugin where
  descriptor : PluginDescriptor
  plugin : Plugin
  deriving DecidableEq, Repr

/-- An entry of the lifecycle log.  A `loadHook` event records the names
of the plugins enabled at call time and the names of the plugins of the
load set already instantiated (loaded) at call time; a `disableHook`
event records whether the hook succeeded (failures are logged, never
propagated). -/
inductive LifecycleEvent where
  | loadHook (pname : String) (enabledAtCall : List String) (loadedAtCall : List String)
  | enableHook (pname : String)
  | disableHook (pname : String) (hookSucceeded : Bool)
  deriving DecidableEq, Repr

/-- Names of the currently enabled plugins of a table. -/
def enabledNames (table : List ManagedPlugin) : List String :=
  (table.filter fun mp => mp.plugin.isEnabled).map fun mp => mp.descriptor.name

/-- Modelled from the spec (§4.4): `enable(plugin)` for the named plugin —
the state transition and the hook invocation go through the
source-embedded `Plugin.setEnabled`, so enabling an already-enabled
plugin emits no hook event. -/
def enableOne (table : List ManagedPlugin) (n : String) :
    List ManagedPlugin × List LifecycleEvent :=
  match table.find? (fun mp => mp.descriptor.name == n) with
  | none => (table, [])
  | some mp =>
    (table.map fun q =>
      if q.descriptor.name == n then { q with plugin := (q.plugin.setEnabled true).1 } else q,
     (mp.plugin.setEnabled true).2.map fun _ => LifecycleEvent.enableHook n)

/-- Enable the named plugins in order, concatenating their hook events. -/
def enablePhase (table : List ManagedPlugin) :
    List String → List ManagedPlugin × List LifecycleEvent
  | [] => (table, [])
  | n :: rest =>
    let step := enableOne table n
    let next := enablePhase step.1 rest
    (next.1, step.2 ++ next.2)

/-- Modelled from the spec (§4.4): `disable(plugin)` for the named plugin
inside the plugin table; `hookOk` tells whether the plugin's disable hook
succeeds — either way the transition completes. -/
def disableOne (table : List ManagedPlugin) (n : String) (hookOk : Bool) :
    List ManagedPlugin × List LifecycleEvent :=
  match table.find? (fun mp => mp.descriptor.name == n) with
  | none => (table, [])
  | some mp =>
    (table.map fun q =>
      if q.descriptor.name == n then { q with plugin := (q.plugin.setEnabled false).1 } else q,
     (mp.plugin.setEnabled false).2.map fun _ => LifecycleEvent.disableHook n hookOk)

/-- Disable the named plugins in order, concatenating their hook events;
`hookOk` gives each plugin's disable-hook outcome. -/
def disablePhase (hookOk : String → Bool) (table : List ManagedPlugin) :
    List String → List ManagedPlugin × List LifecycleEvent
  | [] => (table, [])
  | n :: rest =>
    let step := disableOne table n (hookOk n)
    let next := disablePhase hookOk step.1 rest
    (next.1, step.2 ++ next.2)

/-- The resolved load order of a plugin table, as plugin names. -/
def resolvedNames (table : List ManagedPlugin) : List String :=
  (resolveOrder (table.map ManagedPlugin.descriptor)).map PluginDescriptor.name

/-- Modelled from the spec (§4.4): `loadAll()` resolves the dependency
order, invokes every load hook in that order (all plugins of the load set
are already instantiated, and each load hook records which plugins are
enabled at call time), and only after the whole load phase runs the
enable phase in the same order. -/
def loadAll (table : List ManagedPlugin) :
    List ManagedPlugin × List LifecycleEvent :=
  let ord := resolvedNames table
  let loadEvents := ord.map fun n =>
    LifecycleEvent.loadHook n (enabledNames table) (table.map fun mp => mp.descriptor.name)
  let enabled := enablePhase table ord
  (enabled.1, loadEvents ++ enabled.2)

/-- Modelled from the spec (§4.4): `disableAll()` disables in strict
reverse of the resolved load order; `hookOk` gives each plugin's
disable-hook outcome. -/
def disableAll (hookOk : String → Bool) (table : List ManagedPlugin) :
    List ManagedPlugin × List LifecycleEvent :=
  disablePhase hookOk table (resolvedNames table).reverse

/-- The plugin names carried by the `loadHook` events of a log, in order. -/
def loadOrderOf (events : List LifecycleEvent) : List String :=
  events.filterMap fun e =>
    match e with
    | LifecycleEvent.loadHook n _ _ => some n
    | _ => none

/-- The plugin names carried by the `enableHook` events of a log, in order. -/
def enableOrderOf (events : List LifecycleEvent) : List String :=
  events.filterMap fun e =>
    match e with
    | LifecycleEvent.enableHook n => some n
    | _ => none

/-- The plugin names carried by the `disableHook` events of a log, in order. -/
def disableOrderOf (events : List LifecycleEvent) : List String :=
  events.filterMap fun e =>
    match e with
    | LifecycleEvent.disableHook n _ => some n
    | _ => none

/-! ## Server state and unconditional resource release on disable -/

/-- A command registration owned by a plugin (spec §3, §6). -/
structure CommandReg where
  name : String
  owner : String
  deriving DecidableEq, Repr

/-- The process-wide state the lifecycle manager releases resources from:
the plugin table, every actor's Permissible, the command registrations,
the event subscriptions, and the permission registry. -/
structure ServerState where
  registry : Registry
  plugins : List ManagedPlugin
  actors : List Permissible
  commands : List CommandReg
  subscriptions : List Subscription
  deriving DecidableEq, Repr

/-- Whether the named plugin exists in the table and is enabled. -/
def pluginEnabledIn (st : ServerState) (pname : String) : Bool :=
  match st.plugins.find? (fun mp => mp.descriptor.name == pname) with
  | some mp => mp.plugin.isEnabled
  | none => false

/-- Modelled from the spec (§4.4): release every attachment, command
registration and event subscription owned by the plugin, and rebuild the
affected permission snapshots. -/
def releasePluginResources (st : ServerState) (pname : String) : ServerState :=
  { st with
    actors := st.actors.map fun p =>
      recalculatePermissions st.registry
        { p with attachments := p.attachments.filter fun a => a.owner != some pname },
    commands := st.commands.filter fun c => c.owner != pname,
    subscriptions := st.subscriptions.filter fun s => s.owner != pname }

/-- Modelled from the spec (§4.4): `disable(plugin)` — a no-op on an
already-disabled plugin; otherwise transition the flag through the
source-embedded `Plugin.setEnabled` (which invokes the disable hook,
whose outcome `hookOk` is logged, never propagated) and then
unconditionally release every resource the plugin owns, regardless of the
hook outcome. -/
def disablePlugin (st : ServerState) (pname : String) (hookOk : Bool) :
    ServerState × List LifecycleEvent :=
  if pluginEnabledIn st pname then
    let st₁ :=
      { st with plugins := st.plugins.map fun q =>
          if q.descriptor.name == pname then
            { q with plugin := (q.plugin.setEnabled false).1 }
          else q }
    (releasePluginResources st₁ pname, [LifecycleEvent.disableHook pname hookOk])
  else
    (st, [])

/-! ## Concrete inputs used by witnesses and counterexamples -/

/-- Descriptor of plugin `A` (no hard dependencies). -/
def depA : PluginDescriptor := ⟨"A", []⟩

/-- Descriptor of plugin `B` (hard-depends on `A`). -/
def depB : PluginDescriptor := ⟨"B", ["A"]⟩

/-- Descriptor of plugin `C` (hard-depends on `B`). -/
def depC : PluginDescriptor := ⟨"C", ["B"]⟩

/-- The chain C needs B, B needs A, tabled in scrambled discovery order. -/
def chainTable : List ManagedPlugin :=
  [⟨depC, {}⟩, ⟨depB, {}⟩, ⟨depA, {}⟩]

/-- An attachment overriding permission `x` to false. -/
def attEarlier : PermissionAttachment := ⟨1, none, [("x", false)]⟩

/-- A later attachment overriding the same permission `x` to true. -/
def attLater : PermissionAttachment := ⟨2, none, [("x", true)]⟩

/-- A non-operator Permissible with two conflicting attachments on `x`. -/
def demoConflict : Permissible := ⟨false, [attEarlier, attLater], []⟩

/-- An operator Permissible with no attachments. -/
def demoOpActor : Permissible := ⟨true, [], []⟩

/-- A Permissible whose attachments mention `b` before `a`. -/
def demoSnapshotActor : Permissible :=
  ⟨false, [⟨1, some "plug", [("b", true)]⟩, ⟨2, some "plug", [("a", true)]⟩], []⟩

/-- The snapshot entries of `demoSnapshotActor` in produced order. -/
def demoEntriesProduced : List PermissionAttachmentInfo :=
  [⟨"b", true, some 1, some "plug"⟩, ⟨"a", true, some 2, some "plug"⟩]

/-- The same snapshot entries in ascending name order. -/
def demoEntriesByName : List PermissionAttachmentInfo :=
  [⟨"a", true, some 2, some "plug"⟩, ⟨"b", true, some 1, some "plug"⟩]

/-- A Permissible with one attachment (handle 5) owned by plugin `p`. -/
def demoRemovalActor : Permissible := ⟨false, [⟨5, some "p", [("x", true)]⟩], []⟩

/-- A server state where plugin `p` is enabled and owns one attachment,
one command and one subscription. -/
def demoServer : ServerState :=
  { registry := []
    plugins := [⟨⟨"p", []⟩, ⟨true⟩⟩]
    actors := [⟨false, [⟨1, some "p", [("x", true)]⟩, ⟨2, some "q", [("y", true)]⟩], []⟩]
    commands := [⟨"cmd", "p"⟩, ⟨"other", "q"⟩]
    subscriptions := [⟨"p", "player", 0, 0⟩, ⟨"q", "player", 1, 1⟩] }

/-! ## Helper lemmas: attachment override scanning -/

theorem findOverrideFrom_append (xs ys : List PermissionAttachment) (n : String) :
    findOverrideFrom (xs ++ ys) n = (findOverrideFrom ys n).or (findOverrideFrom xs n) := by
  unfold findOverrideFrom
  rw [List.reverse_append, List.findSome?_append]

theorem findOverrideFrom_eq_none (atts : List PermissionAttachment) (n : String)
    (h : ∀ a ∈ atts, a.perms.lookup n = none) :
    findOverrideFrom atts n = none := by
  unfold findOverrideFrom
  rw [List.findSome?_eq_none_iff]
  intro a ha
  rw [h a (List.mem_reverse.mp ha)]
  rfl

theorem findOverrideFrom_mem {atts : List PermissionAttachment} {n : String}
    {b : Bool} {a : PermissionAttachment}
    (h : findOverrideFrom atts n = some (b, a)) :
    a ∈ atts ∧ a.perms.lookup n = some b := by
  unfold findOverrideFrom at h
  obtain ⟨x, hx, hfx⟩ := List.exists_of_findSome?_eq_some h
  cases hl : x.perms.lookup n with
  | none => rw [hl] at hfx; cases hfx
  | some v =>
    rw [hl] at hfx
    simp only [Option.map_some', Option.some.injEq, Prod.mk.injEq] at hfx
    obtain ⟨hv, hax⟩ := hfx
    subst hax
    exact ⟨List.mem_reverse.mp hx, by rw [hl, hv]⟩

theorem findOverrideFrom_last (l l₃ : List PermissionAttachment)
    (a₂ : PermissionAttachment) (n : String) (v₂ : Bool)
    (h₂ : a₂.perms.lookup n = some v₂)
    (h₃ : ∀ a ∈ l₃, a.perms.lookup n = none) :
    findOverrideFrom (l ++ a₂ :: l₃) n = some (v₂, a₂) := by
  rw [show l ++ a₂ :: l₃ = (l ++ [a₂]) ++ l₃ by simp, findOverrideFrom_append,
    findOverrideFrom_eq_none _ _ h₃, Option.none_or, findOverrideFrom_append]
  simp [findOverrideFrom, h₂]

/-- C5: for a Permissible whose operator flag does not short-circuit the
query, `hasPermission` returns the first explicit boolean override found
scanning the attachments in reverse creation order; consequently when two
attachments set the same permission to conflicting booleans, the
attachment added later determines the effective value. -/
theorem hasPermission_reverse_scan (reg : Registry) (p : Permissible) (n : String) :
    (opShortCircuits reg p.op_ n = false →
      ∀ b, findOverride p.attachments n = some b → hasPermission reg p n = b)
    ∧ (∀ (l₁ l₂ l₃ : List PermissionAttachment) (a₁ a₂ : PermissionAttachment) (v₂ : Bool),
        opShortCircuits reg p.op_ n = false →
        p.attachments = l₁ ++ a₁ :: l₂ ++ a₂ :: l₃ →
        a₁.perms.lookup n = some (!v₂) →
        a₂.perms.lookup n = some v₂ →
        (∀ a ∈ l₃, a.perms.lookup n = none) →
        hasPermission reg p n = v₂) := by
  have hscan : opShortCircuits reg p.op_ n = false →
      ∀ b, findOverride p.attachments n = some b → hasPermission reg p n = b := by
    intro hop b hfind
    unfold hasPermission
    rw [hop]
    simp [hfind]
  refine ⟨hscan, ?_⟩
  intro l₁ l₂ l₃ a₁ a₂ v₂ hop hatts _h₁ h₂ h₃
  apply hscan hop
  rw [hatts, show l₁ ++ a₁ :: l₂ ++ a₂ :: l₃ = (l₁ ++ a₁ :: l₂) ++ a₂ :: l₃ by simp,
    findOverride, findOverrideFrom_last _ _ _ _ _ h₂ h₃]
  rfl

/-- C5 witness: on a concrete non-operator actor with two attachments
setting `x` to conflicting booleans, the later attachment wins. -/
theorem hasPermission_reverse_scan_witness :
    opShortCircuits [] demoConflict.op_ "x" = false ∧
      hasPermission [] demoConflict "x" = true :=
  ⟨by decide,
    (hasPermission_reverse_scan [] demoConflict "x").2 [] [] [] attEarlier attLater true
      (by decide) (by decide) (by decide) (by decide) (by decide)⟩

/-- C7: a permission name that was never registered and has no explicit
attachment override resolves to false (default-deny), for every actor —
operator or not — since even the operator short-circuit requires a
registered definition; the `UnknownPermission` condition yields the safe
default rather than an error.  (A name is here "never explicitly
registered" when no definition is registered under it and no registered
ancestor carries an explicit child implication for it.) -/
theorem hasPermission_default_deny (reg : Registry) (p : Permissible) (n : String)
    (hov : findOverride p.attachments n = none)
    (hdef : lookupDefinition reg n = none)
    (himp : childImplication reg n = none) :
    hasPermission reg p n = false := by
  have hop : opShortCircuits reg p.op_ n = false := by
    unfold opShortCircuits
    rw [hdef]
    simp
  unfold hasPermission
  rw [hop]
  simp only [Bool.false_eq_true, if_false, hov]
  unfold registryResolve
  rw [himp, hdef]

theorem childImplication_nil (n : String) : childImplication ([] : Registry) n = none := by
  unfold childImplication
  rw [List.findSome?_eq_none_iff]
  intro a _
  rfl

/-- C7 witness: a never-registered dotted permission name is denied even
to an operator with no attachments. -/
theorem hasPermission_default_deny_witness :
    findOverride demoOpActor.attachments "plugin.feature.action" = none ∧
      lookupDefinition [] "plugin.feature.action" = none ∧
      childImplication [] "plugin.feature.action" = none ∧
      hasPermission [] demoOpActor "plugin.feature.action" = false :=
  ⟨by decide, rfl, childImplication_nil _,
    hasPermission_default_deny [] demoOpActor "plugin.feature.action" (by decide) rfl
      (childImplication_nil _)⟩

/-- C9: `removeAttachment` returns the `AttachmentNotFound` failure
(`false`, per the `bool` signature at human.h:43) to the caller if and
only if no attachment with the given handle belongs to this Permissible,
leaving the Permissible untouched; otherwise it detaches the attachment
and triggers `recalculatePermissions()` before returning. -/
theorem removeAttachment_not_found_iff (reg : Registry) (p : Permissible) (attId : Nat) :
    ((removeAttachment reg p attId).1 = false ↔ ∀ a ∈ p.attachments, a.id ≠ attId)
    ∧ ((removeAttachment reg p attId).1 = false → (removeAttachment reg p attId).2 = p)
    ∧ ((removeAttachment reg p attId).1 = true →
        (removeAttachment reg p attId).2 =
          recalculatePermissions reg
            { p with attachments := p.attachments.filter fun a => a.id != attId }
          ∧ ∀ a ∈ (removeAttachment reg p attId).2.attachments, a.id ≠ attId) := by
  cases hfound : p.attachments.any fun a => a.id == attId with
  | false =>
    have hnone : ∀ a ∈ p.attachments, a.id ≠ attId := by
      intro a ha hid
      have : p.attachments.any (fun a => a.id == attId) = true :=
        List.any_eq_true.mpr ⟨a, ha, by rw [hid]; exact beq_self_eq_true _⟩
      rw [hfound] at this
      cases this
    refine ⟨⟨fun _ => hnone, fun _ => ?_⟩, fun _ => ?_, fun h => ?_⟩
    · simp [removeAttachment, hfound]
    · simp [removeAttachment, hfound]
    · simp [removeAttachment, hfound] at h
  | true =>
    refine ⟨⟨fun h => ?_, fun hall => ?_⟩, fun h => ?_, fun _ => ⟨?_, ?_⟩⟩
    · simp [removeAttachment, hfound] at h
    · obtain ⟨a, ha, hbeq⟩ := List.any_eq_true.mp hfound
      exact absurd (eq_of_beq hbeq) (hall a ha)
    · simp [removeAttachment, hfound] at h
    · simp [removeAttachment, hfound]
    · intro a ha hid
      simp only [removeAttachment, hfound, if_true, recalculatePermissions] at ha
      have := (List.mem_filter.mp ha).2
      rw [hid] at this
      simp at this

/-- C9 witness: removing the owned handle 5 succeeds and recalculates;
removing the absent handle 7 fails with `AttachmentNotFound`. -/
theorem removeAttachment_not_found_iff_witness :
    ((removeAttachment [] demoRemovalActor 7).1 = false ∧
      (removeAttachment [] demoRemovalActor 7).2 = demoRemovalActor)
    ∧ ((removeAttachment [] demoRemovalActor 5).1 = true ∧
      ∀ a ∈ (removeAttachment [] demoRemovalActor 5).2.attachments, a.id ≠ 5) :=
  ⟨⟨by decide, (removeAttachment_not_found_iff [] demoRemovalActor 7).2.1 (by decide)⟩,
    ⟨by decide, ((removeAttachment_not_found_iff [] demoRemovalActor 5).2.2 (by decide)).2⟩⟩

/-! ## Helper lemmas: the effective-permission snapshot -/

theorem mem_dedupFirst (l : List String) (x : String) : x ∈ dedupFirst l ↔ x ∈ l := by
  induction l with
  | nil => simp [dedupFirst]
  | cons a rest ih =>
    simp only [dedupFirst, List.mem_cons, List.mem_filter, ih]
    constructor
    · rintro (rfl | ⟨hx, _⟩)
      · exact Or.inl rfl
      · exact Or.inr hx
    · rintro (rfl | hx)
      · exact Or.inl rfl
      · by_cases hax : x = a
        · exact Or.inl hax
        · exact Or.inr ⟨hx, by simp [hax]⟩

theorem lookup_mem_keys {ps : List (String × Bool)} {n : String} {b : Bool}
    (h : ps.lookup n = some b) : n ∈ ps.map Prod.fst := by
  induction ps with
  | nil => cases h
  | cons kv rest ih =>
    obtain ⟨k, v⟩ := kv
    rw [List.lookup] at h
    cases hk : n == k with
    | true => exact List.mem_cons.mpr (Or.inl (eq_of_beq hk))
    | false =>
      rw [hk] at h
      exact List.mem_cons.mpr (Or.inr (ih h))

theorem mentioned_of_override {p : Permissible} {n : String} {b : Bool}
    {a : PermissionAttachment} (reg : Registry)
    (h : findOverrideFrom p.attachments n = some (b, a)) :
    n ∈ mentionedNames reg p := by
  obtain ⟨ha, hlook⟩ := findOverrideFrom_mem h
  rw [mentionedNames, mem_dedupFirst, List.mem_append]
  refine Or.inl (List.mem_flatten.mpr ⟨a.perms.map Prod.fst, ?_, lookup_mem_keys hlook⟩)
  exact List.mem_map.mpr ⟨a, ha, rfl⟩

theorem mentioned_of_ne {reg : Registry} {p : Permissible} {n : String}
    (h : hasPermission reg p n ≠ registryResolve reg p.op_ n) :
    n ∈ mentionedNames reg p := by
  unfold hasPermission at h
  cases hop : opShortCircuits reg p.op_ n with
  | true =>
    unfold opShortCircuits at hop
    rw [Bool.and_eq_true] at hop
    cases hdef : lookupDefinition reg n with
    | none => rw [hdef] at hop; cases hop.2
    | some d =>
      have hdef' : reg.find? (fun d => d.name == n) = some d := hdef
      have hd := List.mem_of_find?_eq_some hdef'
      have hbeq := List.find?_some hdef'
      have hbeq' : (d.name == n) = true := hbeq
      have hdn : d.name = n := eq_of_beq hbeq'
      rw [mentionedNames, mem_dedupFirst, List.mem_append]
      exact Or.inr (List.mem_map.mpr ⟨d, hd, hdn⟩)
  | false =>
    rw [hop] at h
    simp only [Bool.false_eq_true, if_false] at h
    cases hfo : findOverrideFrom p.attachments n with
    | none =>
      rw [findOverride, hfo] at h
      exact absurd rfl h
    | some ba =>
      exact mentioned_of_override reg (by rw [hfo])

theorem mem_effectiveEntriesList (reg : Registry) (p : Permissible)
    (info : PermissionAttachmentInfo) :
    info ∈ effectiveEntriesList reg p ↔
      (hasPermission reg p info.permission ≠ registryResolve reg p.op_ info.permission
        ∧ info.value = hasPermission reg p info.permission
        ∧ ((∃ b a, findOverrideFrom p.attachments info.permission = some (b, a)
              ∧ info.sourceAttachment = some a.id ∧ info.sourceOwner = a.owner)
            ∨ (findOverrideFrom p.attachments info.permission = none
              ∧ info.sourceAttachment = none ∧ info.sourceOwner = none))) := by
  rw [effectiveEntriesList, List.mem_filterMap]
  constructor
  · rintro ⟨n, _, he⟩
    simp only [effectiveEntry] at he
    by_cases hv : hasPermission reg p n = registryResolve reg p.op_ n
    · rw [if_pos hv] at he
      cases he
    · rw [if_neg hv] at he
      cases hfo : findOverrideFrom p.attachments n with
      | some ba =>
        obtain ⟨b0, a0⟩ := ba
        rw [hfo] at he
        injection he with he
        subst he
        refine ⟨hv, rfl, Or.inl ?_⟩
        exact ⟨b0, a0, hfo, rfl, rfl⟩
      | none =>
        rw [hfo] at he
        injection he with he
        subst he
        refine ⟨hv, rfl, Or.inr ?_⟩
        exact ⟨hfo, rfl, rfl⟩
  · rintro ⟨hne, hval, htag⟩
    refine ⟨info.permission, mentioned_of_ne hne, ?_⟩
    simp only [effectiveEntry, if_neg hne]
    rcases htag with ⟨b, a, hfo, hsa, hso⟩ | ⟨hfo, hsa, hso⟩
    · rw [hfo]
      obtain ⟨ip, iv, isa, iso⟩ := info
      dsimp only at hval hsa hso
      subst hval
      subst hsa
      subst hso
      rfl
    · rw [hfo]
      obtain ⟨ip, iv, isa, iso⟩ := info
      dsimp only at hval hsa hso
      subst hval
      subst hsa
      subst hso
      rfl

/-- C6 counterexample: on a concrete actor with two overridden
permissions, `getEffectivePermissions` yields the entries of a list that
is not in ascending name order, and — the return type being an unordered
`std::unordered_set` (human.h:45), embedded as a multiset — that value is
equally the coercion of the differently-ordered sorted list: the returned
snapshot determines no stable order sorted by permission name. -/
theorem getEffectivePermissions_order_cex :
    getEffectivePermissions [] demoSnapshotActor = ↑demoEntriesProduced
    ∧ sortedByName demoEntriesProduced = false
    ∧ (↑demoEntriesByName : Multiset PermissionAttachmentInfo) = ↑demoEntriesProduced
    ∧ demoEntriesByName ≠ demoEntriesProduced := by
  refine ⟨by decide, by decide, by decide, by decide⟩

/-- C6 (amended): `getEffectivePermissions()` returns an unordered
snapshot (a `std::unordered_set`, which fixes no iteration order, in
particular no stable order by permission name) containing exactly the
permissions whose resolved value differs from the attachment-free
registry default, each tagged with the attachment that produced its value
(or the "default" tag when no attachment did). -/
theorem getEffectivePermissions_contents (reg : Registry) (p : Permissible)
    (info : PermissionAttachmentInfo) :
    info ∈ getEffectivePermissions reg p ↔
      (hasPermission reg p info.permission ≠ registryResolve reg p.op_ info.permission
        ∧ info.value = hasPermission reg p info.permission
        ∧ ((∃ b a, findOverrideFrom p.attachments info.permission = some (b, a)
              ∧ info.sourceAttachment = some a.id ∧ info.sourceOwner = a.owner)
            ∨ (findOverrideFrom p.attachments info.permission = none
              ∧ info.sourceAttachment = none ∧ info.sourceOwner = none))) :=
  (Multiset.mem_coe).trans (mem_effectiveEntriesList reg p info)

/-! ## Claims about the source-embedded `Plugin::setEnabled` -/

/-- C4: enable and disable are idempotent through `Plugin::setEnabled`
(plugin.h:149-161): the second of two consecutive enables is a no-op, so
starting from a disabled plugin two consecutive enables invoke `onEnable`
exactly once; symmetrically, starting from an enabled plugin two
consecutive disables invoke `onDisable` exactly once. -/
theorem setEnabled_idempotent (p : Plugin) :
    ((p.setEnabled true).1.setEnabled true = ((p.setEnabled true).1, [])
      ∧ (p.setEnabled false).1.setEnabled false = ((p.setEnabled false).1, []))
    ∧ (p.enabled_ = false →
        countOnEnable ((p.setEnabled true).2
          ++ ((p.setEnabled true).1.setEnabled true).2) = 1)
    ∧ (p.enabled_ = true →
        countOnDisable ((p.setEnabled false).2
          ++ ((p.setEnabled false).1.setEnabled false).2) = 1) := by
  obtain ⟨b⟩ := p
  cases b <;> decide

/-- C4 witness: a freshly disabled plugin enabled twice fires `onEnable`
once; an enabled plugin disabled twice fires `onDisable` once. -/
theorem setEnabled_idempotent_witness :
    (({ enabled_ := false } : Plugin).enabled_ = false
      ∧ countOnEnable ((({ enabled_ := false } : Plugin).setEnabled true).2
          ++ ((({ enabled_ := false } : Plugin).setEnabled true).1.setEnabled true).2) = 1)
    ∧ (({ enabled_ := true } : Plugin).enabled_ = true
      ∧ countOnDisable ((({ enabled_ := true } : Plugin).setEnabled false).2
          ++ ((({ enabled_ := true } : Plugin).setEnabled false).1.setEnabled false).2) = 1) :=
  ⟨⟨rfl, (setEnabled_idempotent { enabled_ := false }).2.1 rfl⟩,
    ⟨rfl, (setEnabled_idempotent { enabled_ := true }).2.2 rfl⟩⟩

/-- C10: `Plugin::setEnabled` assigns `enabled_` before invoking the
lifecycle hook and invokes a hook only when the flag actually changes:
calling it with the current flag value is a no-op, every `onEnable`
invocation observes `isEnabled() = true`, every `onDisable` invocation
observes `isEnabled() = false`, a flag change invokes exactly one hook
with the flag already set to the new value, and a default-constructed
`Plugin` starts with `isEnabled() = false` (plugin.h:163). -/
theorem setEnabled_flag_first (p : Plugin) (e : Bool) :
    ({} : Plugin).isEnabled = false
    ∧ p.setEnabled p.enabled_ = (p, [])
    ∧ (∀ obs, HookInvocation.onEnableCalled obs ∈ (p.setEnabled e).2 → obs = true)
    ∧ (∀ obs, HookInvocation.onDisableCalled obs ∈ (p.setEnabled e).2 → obs = false)
    ∧ (p.enabled_ ≠ e → (p.setEnabled e).1.enabled_ = e ∧ (p.setEnabled e).2.length = 1) := by
  obtain ⟨b⟩ := p
  cases b <;> cases e <;> decide

/-- C10 witness: enabling a freshly constructed plugin sets the flag
before the single `onEnable` invocation, which observes the flag true. -/
theorem setEnabled_flag_first_witness :
    (({ enabled_ := false } : Plugin).enabled_ ≠ true)
    ∧ ((({ enabled_ := false } : Plugin).setEnabled true).1.enabled_ = true
        ∧ (({ enabled_ := false } : Plugin).setEnabled true).2.length = 1) :=
  ⟨by decide, (setEnabled_flag_first { enabled_ := false } true).2.2.2.2 (by decide)⟩

/-! ## Claim about event dispatch ordering -/

/-- C8: `sendEvent` delivers the event to exactly the subscribers of the
event's category (the delivery sequence is a permutation of them), in
ascending priority-value order with ties broken by registration order
(`regIndex`); the delivery sequence is a plain sequential computation in
the calling context — the coordinator introduces no concurrency of its
own. -/
theorem sendEvent_priority_order (subs : List Subscription) (cat : String) :
    List.Perm (sendEvent subs cat) (subs.filter fun s => s.category == cat)
    ∧ (∀ s ∈ sendEvent subs cat, s.category = cat)
    ∧ List.Pairwise (fun a b => a.priority < b.priority
        ∨ (a.priority = b.priority ∧ a.regIndex ≤ b.regIndex)) (sendEvent subs cat) := by
  refine ⟨List.perm_insertionSort _ _, ?_, ?_⟩
  · intro s hs
    have hmem : s ∈ subs.filter fun s => s.category == cat :=
      (List.perm_insertionSort _ _).subset hs
    exact eq_of_beq (List.mem_filter.mp hmem).2
  · exact List.sorted_insertionSort DispatchLE _

/-! ## Helper lemmas: dependency resolution -/

theorem readyB_iff (done : List String) (d : PluginDescriptor) :
    readyB done d = true ↔ ∀ dep ∈ d.hardDeps, dep ∈ done := by
  simp [readyB, List.all_eq_true, List.contains, List.elem_iff]

theorem noDepInside_iff (d : PluginDescriptor) (s : List PluginDescriptor) :
    noDepInside d s = true ↔ ∀ dep ∈ d.hardDeps, dep ∉ s.map PluginDescriptor.name := by
  simp [noDepInside, List.all_eq_true, List.contains, List.elem_iff]

theorem depsSatisfied_mem {ds : List PluginDescriptor} (h : depsSatisfiedB ds = true)
    {d : PluginDescriptor} (hd : d ∈ ds) {dep : String} (hdep : dep ∈ d.hardDeps) :
    dep ∈ ds.map PluginDescriptor.name := by
  have h1 := List.all_eq_true.mp h d hd
  have h2 := List.all_eq_true.mp h1 dep hdep
  simpa [List.contains, List.elem_iff] using h2

theorem acyclic_pick {ds pending : List PluginDescriptor}
    (hacyc : acyclicB ds = true) (hsub : List.Sublist pending ds) (hne : pending ≠ []) :
    ∃ d ∈ pending, noDepInside d pending = true := by
  have hmem : pending ∈ ds.sublists := List.mem_sublists.mpr hsub
  have h := List.all_eq_true.mp hacyc pending hmem
  rw [Bool.or_eq_true] at h
  cases h with
  | inl h => exact absurd (List.isEmpty_iff.mp h) hne
  | inr h => exact List.any_eq_true.mp h

theorem resolveOrderAux_spec (ds : List PluginDescriptor)
    (hacyc : acyclicB ds = true) (hsat : depsSatisfiedB ds = true) :
    ∀ (n : Nat) (done : List String) (pending : List PluginDescriptor),
      List.Sublist pending ds →
      n = pending.length →
      (∀ d ∈ ds, d.name ∉ pending.map PluginDescriptor.name → d.name ∈ done) →
      topoOk done (resolveOrderAux n done pending) = true
      ∧ List.Perm (resolveOrderAux n done pending) pending := by
  intro n
  induction n with
  | zero =>
    intro done pending _ hlen _
    have hnil : pending = [] := List.length_eq_zero.mp hlen.symm
    subst hnil
    exact ⟨rfl, List.Perm.refl _⟩
  | succ k ih =>
    intro done pending hsub hlen hinv
    have hne : pending ≠ [] := by
      intro h
      subst h
      simp at hlen
    obtain ⟨d₀, hd₀mem, hd₀nodep⟩ := acyclic_pick hacyc hsub hne
    have hready₀ : readyB done d₀ = true := by
      rw [readyB_iff]
      intro dep hdep
      have hdepin : dep ∈ ds.map PluginDescriptor.name :=
        depsSatisfied_mem hsat (hsub.subset hd₀mem) hdep
      obtain ⟨d', hd', hd'name⟩ := List.mem_map.mp hdepin
      have hnotpend : dep ∉ pending.map PluginDescriptor.name :=
        (noDepInside_iff _ _).mp hd₀nodep dep hdep
      have hdone := hinv d' hd' (by rw [hd'name]; exact hnotpend)
      exact hd'name ▸ hdone
    cases hfind : pending.find? (readyB done) with
    | none =>
      exact absurd hready₀ (List.find?_eq_none.mp hfind d₀ hd₀mem)
    | some d =>
      have hdmem : d ∈ pending := List.mem_of_find?_eq_some hfind
      have hdready : readyB done d = true := List.find?_some hfind
      have hperm : List.Perm pending (d :: pending.erase d) := List.perm_cons_erase hdmem
      have hsub' : List.Sublist (pending.erase d) ds :=
        (List.erase_sublist d pending).trans hsub
      have hlen' : k = (pending.erase d).length := by
        rw [List.length_erase_of_mem hdmem, ← hlen]
        omega
      have hinv' : ∀ d' ∈ ds, d'.name ∉ (pending.erase d).map PluginDescriptor.name →
          d'.name ∈ done ++ [d.name] := by
        intro d' hd' hnot
        by_cases hcase : d'.name ∈ pending.map PluginDescriptor.name
        · have hmem' : d'.name ∈ (d :: pending.erase d).map PluginDescriptor.name :=
            (hperm.map PluginDescriptor.name).mem_iff.mp hcase
          rw [List.map_cons] at hmem'
          cases List.mem_cons.mp hmem' with
          | inl h => rw [h]; exact List.mem_append.mpr (Or.inr (List.mem_singleton.mpr rfl))
          | inr h => exact absurd h hnot
        · exact List.mem_append.mpr (Or.inl (hinv d' hd' hcase))
      obtain ⟨htopo, hpermrec⟩ := ih (done ++ [d.name]) (pending.erase d) hsub' hlen' hinv'
      have hunfold : resolveOrderAux (k + 1) done pending =
          d :: resolveOrderAux k (done ++ [d.name]) (pending.erase d) := by
        simp [resolveOrderAux, hfind]
      rw [hunfold]
      exact ⟨by simp [topoOk, hdready, htopo], (hpermrec.cons d).trans hperm.symm⟩

theorem resolveOrder_spec (ds : List PluginDescriptor)
    (hacyc : acyclicB ds = true) (hsat : depsSatisfiedB ds = true) :
    topoOk [] (resolveOrder ds) = true ∧ List.Perm (resolveOrder ds) ds := by
  refine resolveOrderAux_spec ds hacyc hsat ds.length [] ds (List.Sublist.refl ds) rfl ?_
  intro d hd hnot
  exact absurd (List.mem_map.mpr ⟨d, hd, rfl⟩) hnot

/-! ## Helper lemmas: enable and disable phases -/

theorem setEnabled_true_fst (p : Plugin) :
    (p.setEnabled true).1 = { enabled_ := true } := by
  obtain ⟨b⟩ := p
  cases b <;> rfl

theorem setEnabled_false_fst (p : Plugin) :
    (p.setEnabled false).1 = { enabled_ := false } := by
  obtain ⟨b⟩ := p
  cases b <;> rfl

theorem setEnabled_true_snd_of_disabled {p : Plugin} (h : p.enabled_ = false) :
    (p.setEnabled true).2 = [HookInvocation.onEnableCalled true] := by
  obtain ⟨b⟩ := p
  cases b
  · rfl
  · simp at h

theorem setEnabled_false_snd_of_enabled {p : Plugin} (h : p.enabled_ = true) :
    (p.setEnabled false).2 = [HookInvocation.onDisableCalled false] := by
  obtain ⟨b⟩ := p
  cases b
  · simp at h
  · rfl

theorem enablePhase_run : ∀ (ord : List String) (table : List ManagedPlugin),
    ord.Nodup →
    (∀ n ∈ ord, ∃ mp ∈ table, mp.descriptor.name = n) →
    (∀ mp ∈ table, mp.descriptor.name ∈ ord → mp.plugin.enabled_ = false) →
    enablePhase table ord =
      (table.map fun q =>
        if ord.contains q.descriptor.name then { q with plugin := { enabled_ := true } } else q,
       ord.map LifecycleEvent.enableHook) := by
  intro ord
  induction ord with
  | nil =>
    intro table _ _ _
    show (table, []) = _
    simp
  | cons n rest ih =>
    intro table hnodup hex hdis
    have hnrest : n ∉ rest := (List.nodup_cons.mp hnodup).1
    obtain ⟨mp₀, hmp₀, hname₀⟩ := hex n (List.mem_cons_self n rest)
    have hsome : (table.find? fun mp => mp.descriptor.name == n).isSome :=
      List.find?_isSome.mpr ⟨mp₀, hmp₀, by rw [hname₀]; exact beq_self_eq_true n⟩
    obtain ⟨mpf, hmpf⟩ := Option.isSome_iff_exists.mp hsome
    have hmpfmem : mpf ∈ table := List.mem_of_find?_eq_some hmpf
    have hmpfbeq := List.find?_some hmpf
    have hmpfbeq' : (mpf.descriptor.name == n) = true := hmpfbeq
    have hmpfname : mpf.descriptor.name = n := eq_of_beq hmpfbeq'
    have hmpfdis : mpf.plugin.enabled_ = false :=
      hdis mpf hmpfmem (hmpfname ▸ List.mem_cons_self n rest)
    have hstep : enableOne table n =
        (table.map fun q =>
          if q.descriptor.name == n then { q with plugin := (q.plugin.setEnabled true).1 }
          else q,
         [LifecycleEvent.enableHook n]) := by
      simp only [enableOne, hmpf]
      rw [setEnabled_true_snd_of_disabled hmpfdis]
      rfl
    have hgdesc : ∀ q : ManagedPlugin,
        ((fun q => if q.descriptor.name == n then
            { q with plugin := (q.plugin.setEnabled true).1 } else q) q).descriptor
          = q.descriptor := by
      intro q
      by_cases hq : (q.descriptor.name == n) = true
      · simp [hq]
      · simp [hq]
    have hex' : ∀ m ∈ rest, ∃ mp ∈
        table.map fun q => if q.descriptor.name == n then
          { q with plugin := (q.plugin.setEnabled true).1 } else q,
        mp.descriptor.name = m := by
      intro m hm
      obtain ⟨mp, hmp, hmpn⟩ := hex m (List.mem_cons_of_mem n hm)
      refine ⟨_, List.mem_map.mpr ⟨mp, hmp, rfl⟩, ?_⟩
      rw [hgdesc mp]
      exact hmpn
    have hdis' : ∀ mp ∈
        table.map fun q => if q.descriptor.name == n then
          { q with plugin := (q.plugin.setEnabled true).1 } else q,
        mp.descriptor.name ∈ rest → mp.plugin.enabled_ = false := by
      intro mp hmp hmprest
      obtain ⟨q, hq, hqeq⟩ := List.mem_map.mp hmp
      by_cases hqn : (q.descriptor.name == n) = true
      · exfalso
        rw [← hqeq, hgdesc q] at hmprest
        rw [eq_of_beq hqn] at hmprest
        exact hnrest hmprest
      · rw [← hqeq]
        simp only [hqn, Bool.false_eq_true, if_false]
        rw [← hqeq, hgdesc q] at hmprest
        exact hdis q hq (List.mem_cons_of_mem n hmprest)
    have htail := ih _ (List.nodup_cons.mp hnodup).2 hex' hdis'
    have hcons : enablePhase table (n :: rest) =
        ((enablePhase (enableOne table n).1 rest).1,
         (enableOne table n).2 ++ (enablePhase (enableOne table n).1 rest).2) := rfl
    rw [hcons, hstep]
    simp only [htail]
    refine Prod.ext ?_ rfl
    show (List.map _ (List.map _ table)) = _
    rw [List.map_map]
    refine List.map_congr_left ?_
    intro q _
    by_cases hq : (q.descriptor.name == n) = true
    · have hqin : (n :: rest).contains q.descriptor.name = true := by
        simp [List.contains_cons, eq_of_beq hq]
      simp only [Function.comp_apply, hq, if_true, hqin]
      have hdesc : ({ q with plugin := (q.plugin.setEnabled true).1 } : ManagedPlugin).descriptor
          = q.descriptor := rfl
      by_cases hq2 : rest.contains q.descriptor.name = true
      · simp [hq2, setEnabled_true_fst]
      · simp [hq2, setEnabled_true_fst]
    · have hqeqn : (q.descriptor.name == n) = false := by
        simp only [Bool.not_eq_true] at hq
        exact hq
      have hcontains : (n :: rest).contains q.descriptor.name
          = rest.contains q.descriptor.name := by
        rw [List.contains_cons]
        have : (q.descriptor.name == n) = false := hqeqn
        rw [this]
        simp
      simp only [Function.comp_apply, hqeqn, Bool.false_eq_true, if_false, hcontains]

theorem disablePhase_run (hookOk : String → Bool) :
    ∀ (ord : List String) (table : List ManagedPlugin),
    ord.Nodup →
    (∀ n ∈ ord, ∃ mp ∈ table, mp.descriptor.name = n) →
    (∀ mp ∈ table, mp.descriptor.name ∈ ord → mp.plugin.enabled_ = true) →
    disablePhase hookOk table ord =
      (table.map fun q =>
        if ord.contains q.descriptor.name then { q with plugin := { enabled_ := false } } else q,
       ord.map fun n => LifecycleEvent.disableHook n (hookOk n)) := by
  intro ord
  induction ord with
  | nil =>
    intro table _ _ _
    show (table, []) = _
    simp
  | cons n rest ih =>
    intro table hnodup hex hen
    have hnrest : n ∉ rest := (List.nodup_cons.mp hnodup).1
    obtain ⟨mp₀, hmp₀, hname₀⟩ := hex n (List.mem_cons_self n rest)
    have hsome : (table.find? fun mp => mp.descriptor.name == n).isSome :=
      List.find?_isSome.mpr ⟨mp₀, hmp₀, by rw [hname₀]; exact beq_self_eq_true n⟩
    obtain ⟨mpf, hmpf⟩ := Option.isSome_iff_exists.mp hsome
    have hmpfmem : mpf ∈ table := List.mem_of_find?_eq_some hmpf
    have hmpfbeq := List.find?_some hmpf
    have hmpfbeq' : (mpf.descriptor.name == n) = true := hmpfbeq
    have hmpfname : mpf.descriptor.name = n := eq_of_beq hmpfbeq'
    have hmpfen : mpf.plugin.enabled_ = true :=
      hen mpf hmpfmem (hmpfname ▸ List.mem_cons_self n rest)
    have hstep : disableOne table n (hookOk n) =
        (table.map fun q =>
          if q.descriptor.name == n then { q with plugin := (q.plugin.setEnabled false).1 }
          else q,
         [LifecycleEvent.disableHook n (hookOk n)]) := by
      simp only [disableOne, hmpf]
      rw [setEnabled_false_snd_of_enabled hmpfen]
      rfl
    have hgdesc : ∀ q : ManagedPlugin,
        ((fun q => if q.descriptor.name == n then
            { q with plugin := (q.plugin.setEnabled false).1 } else q) q).descriptor
          = q.descriptor := by
      intro q
      by_cases hq : (q.descriptor.name == n) = true
      · simp [hq]
      · simp [hq]
    have hex' : ∀ m ∈ rest, ∃ mp ∈
        table.map fun q => if q.descriptor.name == n then
          { q with plugin := (q.plugin.setEnabled false).1 } else q,
        mp.descriptor.name = m := by
      intro m hm
      obtain ⟨mp, hmp, hmpn⟩ := hex m (List.mem_cons_of_mem n hm)
      refine ⟨_, List.mem_map.mpr ⟨mp, hmp, rfl⟩, ?_⟩
      rw [hgdesc mp]
      exact hmpn
    have hen' : ∀ mp ∈
        table.map fun q => if q.descriptor.name == n then
          { q with plugin := (q.plugin.setEnabled false).1 } else q,
        mp.descriptor.name ∈ rest → mp.plugin.enabled_ = true := by
      intro mp hmp hmprest
      obtain ⟨q, hq, hqeq⟩ := List.mem_map.mp hmp
      by_cases hqn : (q.descriptor.name == n) = true
      · exfalso
        rw [← hqeq, hgdesc q] at hmprest
        rw [eq_of_beq hqn] at hmprest
        exact hnrest hmprest
      · rw [← hqeq]
        simp only [hqn, Bool.false_eq_true, if_false]
        rw [← hqeq, hgdesc q] at hmprest
        exact hen q hq (List.mem_cons_of_mem n hmprest)
    have htail := ih _ (List.nodup_cons.mp hnodup).2 hex' hen'
    have hcons : disablePhase hookOk table (n :: rest) =
        ((disablePhase hookOk (disableOne table n (hookOk n)).1 rest).1,
         (disableOne table n (hookOk n)).2
           ++ (disablePhase hookOk (disableOne table n (hookOk n)).1 rest).2) := rfl
    rw [hcons, hstep]
    simp only [htail]
    refine Prod.ext ?_ rfl
    show (List.map _ (List.map _ table)) = _
    rw [List.map_map]
    refine List.map_congr_left ?_
    intro q _
    by_cases hq : (q.descriptor.name == n) = true
    · have hqin : (n :: rest).contains q.descriptor.name = true := by
        simp [List.contains_cons, eq_of_beq hq]
      simp only [Function.comp_apply, hq, if_true, hqin]
      by_cases hq2 : rest.contains q.descriptor.name = true
      · simp [hq2, setEnabled_false_fst]
      · simp [hq2, setEnabled_false_fst]
    · have hqeqn : (q.descriptor.name == n) = false := by
        simp only [Bool.not_eq_true] at hq
        exact hq
      have hcontains : (n :: rest).contains q.descriptor.name
          = rest.contains q.descriptor.name := by
        rw [List.contains_cons]
        rw [hqeqn]
        simp
      simp only [Function.comp_apply, hqeqn, Bool.false_eq_true, if_false, hcontains]

/-! ## Helper lemmas: extracting hook orders from a log -/

theorem enableOrderOf_append (xs ys : List LifecycleEvent) :
    enableOrderOf (xs ++ ys) = enableOrderOf xs ++ enableOrderOf ys :=
  List.filterMap_append xs ys _

theorem disableOrderOf_append (xs ys : List LifecycleEvent) :
    disableOrderOf (xs ++ ys) = disableOrderOf xs ++ disableOrderOf ys :=
  List.filterMap_append xs ys _

theorem loadOrderOf_append (xs ys : List LifecycleEvent) :
    loadOrderOf (xs ++ ys) = loadOrderOf xs ++ loadOrderOf ys :=
  List.filterMap_append xs ys _

theorem enableOrderOf_loadEvents (l : List String) (ens lns : List String) :
    enableOrderOf (l.map fun n => LifecycleEvent.loadHook n ens lns) = [] := by
  induction l with
  | nil => rfl
  | cons a rest ih => simp [enableOrderOf, List.filterMap_cons]

theorem enableOrderOf_enableEvents (l : List String) :
    enableOrderOf (l.map LifecycleEvent.enableHook) = l := by
  induction l with
  | nil => rfl
  | cons a rest ih => simpa [enableOrderOf, List.filterMap_cons] using ih

theorem loadOrderOf_loadEvents (l : List String) (ens lns : List String) :
    loadOrderOf (l.map fun n => LifecycleEvent.loadHook n ens lns) = l := by
  induction l with
  | nil => rfl
  | cons a rest ih => simpa [loadOrderOf, List.filterMap_cons] using ih

theorem loadOrderOf_enableEvents (l : List String) :
    loadOrderOf (l.map LifecycleEvent.enableHook) = [] := by
  induction l with
  | nil => rfl
  | cons a rest ih => simp [loadOrderOf, List.filterMap_cons]

theorem disableOrderOf_disableEvents (l : List String) (hookOk : String → Bool) :
    disableOrderOf (l.map fun n => LifecycleEvent.disableHook n (hookOk n)) = l := by
  induction l with
  | nil => rfl
  | cons a rest ih => simpa [disableOrderOf, List.filterMap_cons] using ih

theorem contains_eq_true_of_mem {l : List String} {a : String} (h : a ∈ l) :
    l.contains a = true :=
  List.elem_iff.mpr h

theorem updateEnabled_descriptor (ord : List String) (b : Bool) (q : ManagedPlugin) :
    ((if ord.contains q.descriptor.name then { q with plugin := { enabled_ := b } } else q)
      : ManagedPlugin).descriptor = q.descriptor := by
  by_cases h : ord.contains q.descriptor.name = true
  · rw [if_pos h]
  · rw [if_neg h]

theorem updateEnabled_enabled {ord : List String} {q : ManagedPlugin} (b : Bool)
    (h : ord.contains q.descriptor.name = true) :
    ((if ord.contains q.descriptor.name then { q with plugin := { enabled_ := b } } else q)
      : ManagedPlugin).plugin.enabled_ = b := by
  rw [if_pos h]

/-! ## Claims about the lifecycle manager -/

/-- C1: for every plugin set whose hard dependencies are acyclic and
satisfied (and whose names are unique), the order `loadAll` enables the
plugins in is a topological order of the hard-dependency graph covering
the whole set (every hard dependency is enabled before its dependent),
and `disableAll` disables in the exact reverse of that order, whatever
each plugin's disable hook outcome. -/
theorem loadAll_topological_disableAll_reverse
    (table : List ManagedPlugin) (hookOk : String → Bool)
    (hacyc : acyclicB (table.map ManagedPlugin.descriptor) = true)
    (hsat : depsSatisfiedB (table.map ManagedPlugin.descriptor) = true)
    (hnodup : ((table.map ManagedPlugin.descriptor).map PluginDescriptor.name).Nodup)
    (hdis : ∀ mp ∈ table, mp.plugin.enabled_ = false) :
    topoOk [] (resolveOrder (table.map ManagedPlugin.descriptor)) = true
    ∧ List.Perm (resolveOrder (table.map ManagedPlugin.descriptor))
        (table.map ManagedPlugin.descriptor)
    ∧ enableOrderOf (loadAll table).2 = resolvedNames table
    ∧ disableOrderOf (disableAll hookOk (loadAll table).1).2
        = (resolvedNames table).reverse := by
  obtain ⟨htopo, hperm⟩ := resolveOrder_spec (table.map ManagedPlugin.descriptor) hacyc hsat
  have hordperm : List.Perm (resolvedNames table)
      ((table.map ManagedPlugin.descriptor).map PluginDescriptor.name) :=
    hperm.map PluginDescriptor.name
  have hordnodup : (resolvedNames table).Nodup := hordperm.nodup_iff.mpr hnodup
  have hex : ∀ n ∈ resolvedNames table, ∃ mp ∈ table, mp.descriptor.name = n := by
    intro n hn
    have hn' : n ∈ (table.map ManagedPlugin.descriptor).map PluginDescriptor.name :=
      hordperm.subset hn
    obtain ⟨d, hd, hdn⟩ := List.mem_map.mp hn'
    obtain ⟨mp, hmp, hmpd⟩ := List.mem_map.mp hd
    exact ⟨mp, hmp, by rw [hmpd]; exact hdn⟩
  have hdis' : ∀ mp ∈ table, mp.descriptor.name ∈ resolvedNames table →
      mp.plugin.enabled_ = false :=
    fun mp hmp _ => hdis mp hmp
  have hen := enablePhase_run (resolvedNames table) table hordnodup hex hdis'
  have hload1 : (loadAll table).1 = (enablePhase table (resolvedNames table)).1 := rfl
  have hload2 : (loadAll table).2 =
      ((resolvedNames table).map fun n =>
        LifecycleEvent.loadHook n (enabledNames table)
          (table.map fun mp => mp.descriptor.name))
      ++ (enablePhase table (resolvedNames table)).2 := rfl
  have henOrder : enableOrderOf (loadAll table).2 = resolvedNames table := by
    rw [hload2, enableOrderOf_append, enableOrderOf_loadEvents, hen]
    rw [enableOrderOf_enableEvents]
    rfl
  refine ⟨htopo, hperm, henOrder, ?_⟩
  have hdesc : ((loadAll table).1.map ManagedPlugin.descriptor)
      = table.map ManagedPlugin.descriptor := by
    rw [hload1, hen]
    show (List.map _ (List.map _ table)) = _
    rw [List.map_map]
    refine List.map_congr_left ?_
    intro q _
    exact updateEnabled_descriptor _ _ _
  have hresolved1 : resolvedNames (loadAll table).1 = resolvedNames table := by
    unfold resolvedNames
    rw [hdesc]
  have hex1 : ∀ n ∈ (resolvedNames table).reverse,
      ∃ mp ∈ (loadAll table).1, mp.descriptor.name = n := by
    intro n hn
    obtain ⟨mp, hmp, hmpn⟩ := hex n (List.mem_reverse.mp hn)
    rw [hload1, hen]
    refine ⟨_, List.mem_map.mpr ⟨mp, hmp, rfl⟩, ?_⟩
    rw [updateEnabled_descriptor]
    exact hmpn
  have hen1 : ∀ mp ∈ (loadAll table).1,
      mp.descriptor.name ∈ (resolvedNames table).reverse → mp.plugin.enabled_ = true := by
    intro mp hmp _
    rw [hload1, hen] at hmp
    obtain ⟨q, hq, hqeq⟩ := List.mem_map.mp hmp
    have hqin : q.descriptor.name ∈ resolvedNames table := by
      refine hordperm.mem_iff.mpr ?_
      exact List.mem_map.mpr ⟨q.descriptor, List.mem_map.mpr ⟨q, hq, rfl⟩, rfl⟩
    rw [← hqeq]
    exact updateEnabled_enabled true (contains_eq_true_of_mem hqin)
  have hdisable := disablePhase_run hookOk ((resolvedNames table).reverse) (loadAll table).1
    (List.nodup_reverse.mpr hordnodup) hex1 hen1
  have hda : disableAll hookOk (loadAll table).1
      = disablePhase hookOk (loadAll table).1 (resolvedNames (loadAll table).1).reverse := rfl
  rw [hda, hresolved1, hdisable]
  exact disableOrderOf_disableEvents _ hookOk

/-- C1 witness: for the chain C needs B, B needs A (tabled in scrambled
order), the resolved order is A, B, C — A enables before B before C — and
`disableAll` disables C, then B, then A. -/
theorem loadAll_topological_disableAll_reverse_witness :
    (acyclicB (chainTable.map ManagedPlugin.descriptor) = true
      ∧ depsSatisfiedB (chainTable.map ManagedPlugin.descriptor) = true
      ∧ ((chainTable.map ManagedPlugin.descriptor).map PluginDescriptor.name).Nodup
      ∧ ∀ mp ∈ chainTable, mp.plugin.enabled_ = false)
    ∧ resolvedNames chainTable = ["A", "B", "C"]
    ∧ (topoOk [] (resolveOrder (chainTable.map ManagedPlugin.descriptor)) = true
      ∧ List.Perm (resolveOrder (chainTable.map ManagedPlugin.descriptor))
          (chainTable.map ManagedPlugin.descriptor)
      ∧ enableOrderOf (loadAll chainTable).2 = resolvedNames chainTable
      ∧ disableOrderOf (disableAll (fun _ => true) (loadAll chainTable).1).2
          = (resolvedNames chainTable).reverse) :=
  ⟨⟨by decide, by decide, by decide, by decide⟩, by decide,
    loadAll_topological_disableAll_reverse chainTable (fun _ => true)
      (by decide) (by decide) (by decide) (by decide)⟩

/-- C3: for every plugin set (acyclic, satisfied, uniquely named, all
initially disabled), `loadAll` invokes every load hook in resolved
dependency order, all load hooks precede every enable hook (the log is
the load-phase block followed by the enable-phase block), and each load
hook runs while no plugin is enabled but every plugin of the load set is
already instantiated (loaded). -/
theorem loadAll_two_phase (table : List ManagedPlugin)
    (hacyc : acyclicB (table.map ManagedPlugin.descriptor) = true)
    (hsat : depsSatisfiedB (table.map ManagedPlugin.descriptor) = true)
    (hnodup : ((table.map ManagedPlugin.descriptor).map PluginDescriptor.name).Nodup)
    (hdis : ∀ mp ∈ table, mp.plugin.enabled_ = false) :
    (loadAll table).2 =
      ((resolvedNames table).map fun n =>
        LifecycleEvent.loadHook n [] (table.map fun mp => mp.descriptor.name))
      ++ ((resolvedNames table).map LifecycleEvent.enableHook)
    ∧ loadOrderOf (loadAll table).2 = resolvedNames table
    ∧ (∀ n ens lns, LifecycleEvent.loadHook n ens lns ∈ (loadAll table).2 →
        ens = [] ∧ lns = table.map fun mp => mp.descriptor.name) := by
  obtain ⟨htopo, hperm⟩ := resolveOrder_spec (table.map ManagedPlugin.descriptor) hacyc hsat
  have hordperm : List.Perm (resolvedNames table)
      ((table.map ManagedPlugin.descriptor).map PluginDescriptor.name) :=
    hperm.map PluginDescriptor.name
  have hordnodup : (resolvedNames table).Nodup := hordperm.nodup_iff.mpr hnodup
  have hex : ∀ n ∈ resolvedNames table, ∃ mp ∈ table, mp.descriptor.name = n := by
    intro n hn
    have hn' : n ∈ (table.map ManagedPlugin.descriptor).map PluginDescriptor.name :=
      hordperm.subset hn
    obtain ⟨d, hd, hdn⟩ := List.mem_map.mp hn'
    obtain ⟨mp, hmp, hmpd⟩ := List.mem_map.mp hd
    exact ⟨mp, hmp, by rw [hmpd]; exact hdn⟩
  have hdis' : ∀ mp ∈ table, mp.descriptor.name ∈ resolvedNames table →
      mp.plugin.enabled_ = false :=
    fun mp hmp _ => hdis mp hmp
  have hen := enablePhase_run (resolvedNames table) table hordnodup hex hdis'
  have henNil : enabledNames table = [] := by
    unfold enabledNames
    rw [List.filter_eq_nil_iff.mpr]
    · rfl
    · intro mp hmp
      rw [Plugin.isEnabled, hdis mp hmp]
      decide
  have hload2 : (loadAll table).2 =
      ((resolvedNames table).map fun n =>
        LifecycleEvent.loadHook n (enabledNames table)
          (table.map fun mp => mp.descriptor.name))
      ++ (enablePhase table (resolvedNames table)).2 := rfl
  have hmain : (loadAll table).2 =
      ((resolvedNames table).map fun n =>
        LifecycleEvent.loadHook n [] (table.map fun mp => mp.descriptor.name))
      ++ ((resolvedNames table).map LifecycleEvent.enableHook) := by
    rw [hload2, henNil, hen]
  refine ⟨hmain, ?_, ?_⟩
  · rw [hmain, loadOrderOf_append, loadOrderOf_loadEvents, loadOrderOf_enableEvents,
      List.append_nil]
  · intro n ens lns hmem
    rw [hmain] at hmem
    cases List.mem_append.mp hmem with
    | inl h =>
      obtain ⟨m, _, hmeq⟩ := List.mem_map.mp h
      injection hmeq with h1 h2 h3
      exact ⟨h2.symm, h3.symm⟩
    | inr h =>
      obtain ⟨m, _, hmeq⟩ := List.mem_map.mp h
      cases hmeq

/-- C3 witness: for the chain C needs B, B needs A, the log is the three
load hooks in order A, B, C — each seeing no plugin enabled and all three
loaded — followed by the three enable hooks. -/
theorem loadAll_two_phase_witness :
    (acyclicB (chainTable.map ManagedPlugin.descriptor) = true
      ∧ depsSatisfiedB (chainTable.map ManagedPlugin.descriptor) = true
      ∧ ((chainTable.map ManagedPlugin.descriptor).map PluginDescriptor.name).Nodup
      ∧ ∀ mp ∈ chainTable, mp.plugin.enabled_ = false)
    ∧ loadOrderOf (loadAll chainTable).2 = ["A", "B", "C"]
    ∧ ((loadAll chainTable).2 =
        ((resolvedNames chainTable).map fun n =>
          LifecycleEvent.loadHook n [] (chainTable.map fun mp => mp.descriptor.name))
        ++ ((resolvedNames chainTable).map LifecycleEvent.enableHook)
      ∧ loadOrderOf (loadAll chainTable).2 = resolvedNames chainTable
      ∧ (∀ n ens lns, LifecycleEvent.loadHook n ens lns ∈ (loadAll chainTable).2 →
          ens = [] ∧ lns = chainTable.map fun mp => mp.descriptor.name)) :=
  ⟨⟨by decide, by decide, by decide, by decide⟩, by decide,
    loadAll_two_phase chainTable (by decide) (by decide) (by decide) (by decide)⟩

/-! ## Claim about unconditional resource release on disable -/

/-- C2: after `disable(plugin)` completes on an enabled plugin, no
attachment, command registration or event subscription owned by that
plugin survives, regardless of whether the plugin's disable hook
succeeded or failed: every Permissible's attachments exclude the plugin,
`getEffectivePermissions()` contains no entry attributable to it, and
`sendEvent` delivers to zero handlers it owns. -/
theorem disablePlugin_releases_all (st : ServerState) (pname : String) (hookOk : Bool)
    (hen : pluginEnabledIn st pname = true) :
    (∀ actor ∈ (disablePlugin st pname hookOk).1.actors,
      ∀ a ∈ actor.attachments, a.owner ≠ some pname)
    ∧ (∀ actor ∈ (disablePlugin st pname hookOk).1.actors,
        ∀ info ∈ getEffectivePermissions (disablePlugin st pname hookOk).1.registry actor,
          info.sourceOwner ≠ some pname)
    ∧ (∀ c ∈ (disablePlugin st pname hookOk).1.commands, c.owner ≠ pname)
    ∧ (∀ cat : String, ∀ s ∈ sendEvent (disablePlugin st pname hookOk).1.subscriptions cat,
        s.owner ≠ pname) := by
  have hst : (disablePlugin st pname hookOk).1 =
      releasePluginResources
        { st with plugins := st.plugins.map fun q =>
            if q.descriptor.name == pname then
              { q with plugin := (q.plugin.setEnabled false).1 }
            else q }
        pname := by
    unfold disablePlugin
    rw [if_pos hen]
  have hatt : ∀ actor ∈ (disablePlugin st pname hookOk).1.actors,
      ∀ a ∈ actor.attachments, a.owner ≠ some pname := by
    intro actor hactor a ha
    rw [hst] at hactor
    simp only [releasePluginResources] at hactor
    obtain ⟨p0, _, hp0eq⟩ := List.mem_map.mp hactor
    rw [← hp0eq] at ha
    simp only [recalculatePermissions] at ha
    have hown := (List.mem_filter.mp ha).2
    simpa using hown
  refine ⟨hatt, ?_, ?_, ?_⟩
  · intro actor hactor info hinfo
    rw [getEffectivePermissions, Multiset.mem_coe, mem_effectiveEntriesList] at hinfo
    obtain ⟨_, _, htag⟩ := hinfo
    rcases htag with ⟨b, a, hfo, _, hso⟩ | ⟨_, _, hso⟩
    · obtain ⟨hamem, _⟩ := findOverrideFrom_mem hfo
      rw [hso]
      exact hatt actor hactor a hamem
    · rw [hso]
      intro hcontra
      cases hcontra
  · intro c hc
    rw [hst] at hc
    simp only [releasePluginResources] at hc
    have hown := (List.mem_filter.mp hc).2
    simpa using hown
  · intro cat s hs
    have hsub : s ∈ (disablePlugin st pname hookOk).1.subscriptions :=
      (List.mem_filter.mp ((List.perm_insertionSort _ _).subset hs)).1
    rw [hst] at hsub
    simp only [releasePluginResources] at hsub
    have hown := (List.mem_filter.mp hsub).2
    simpa using hown

/-- C2 witness: disabling the enabled plugin `p` of the demo server with
a failing disable hook still strips every resource `p` owns. -/
theorem disablePlugin_releases_all_witness :
    pluginEnabledIn demoServer "p" = true
    ∧ ((∀ actor ∈ (disablePlugin demoServer "p" false).1.actors,
        ∀ a ∈ actor.attachments, a.owner ≠ some "p")
      ∧ (∀ actor ∈ (disablePlugin demoServer "p" false).1.actors,
          ∀ info ∈ getEffectivePermissions (disablePlugin demoServer "p" false).1.registry actor,
            info.sourceOwner ≠ some "p")
      ∧ (∀ c ∈ (disablePlugin demoServer "p" false).1.commands, c.owner ≠ "p")
      ∧ (∀ cat : String, ∀ s ∈ sendEvent (disablePlugin demoServer "p" false).1.subscriptions cat,
          s.owner ≠ "p")) :=
  ⟨by decide, disablePlugin_releases_all demoServer "p" false (by decide)⟩

end EndstoneSpec
